import Mathlib

/-!
Verification of the `parse_nist_param` utility (src/utils.py) of the
CompactCryptoGroupAlgebra repository.

The Python function first deletes every space character and then every
newline character of its argument (two replace calls with the empty
replacement), then formats each two-character slice of the cleaned text
(slices start at offsets 0, 2, 4, ...) as a byte literal consisting of the
prefix 0x, the lowercased slice, and a trailing comma; the list of literals
is reversed and joined with single spaces.

We embed Python strings as `List Char` and model each step of the function
with its own definition, composed in `CCGA.parse_nist_param`.  Python string
lowercasing on the relevant (ASCII) alphabet is `Char.toLower`.
-/

namespace CCGA

/-- Model of the first replace call: delete every space character. -/
def removeSpaces (b : List Char) : List Char :=
  b.filter (fun c => !(c == ' '))

/-- Model of the second replace call: delete every newline character. -/
def removeNewlines (b : List Char) : List Char :=
  b.filter (fun c => !(c == '\n'))

/-- Model of the reassignment of `b`: the cleaned input, with all spaces
and then all newlines deleted. -/
def cleanInput (b : List Char) : List Char :=
  removeNewlines (removeSpaces b)

/-- Model of the list comprehension slicing `b` at offsets 0, 2, 4, ...:
partition into consecutive two-character chunks, the last of which may have
length one when the input length is odd. -/
def chunkPairs : List Char → List (List Char)
  | [] => []
  | [c] => [[c]]
  | c₁ :: c₂ :: rest => [c₁, c₂] :: chunkPairs rest

/-- Model of the f-string building one token: the prefix 0x, the lowercased
chunk, and a trailing comma. -/
def formatByte (chunk : List Char) : List Char :=
  '0' :: 'x' :: (chunk.map Char.toLower ++ [','])

/-- Model of `parse_nist_param` itself: clean, chunk, format, reverse, and
join the tokens with a single space. -/
def parse_nist_param (b : List Char) : List Char :=
  List.intercalate [' '] (((chunkPairs (cleanInput b)).map formatByte).reverse)

/-- Hexadecimal digit (`0`-`9`, `a`-`f`, `A`-`F`), stated on code points:
48-57 are the digits, 97-102 are `a`-`f`, 65-70 are `A`-`F`. -/
def isHexDigit (c : Char) : Bool :=
  (48 ≤ c.toNat && c.toNat ≤ 57) || (97 ≤ c.toNat && c.toNat ≤ 102) ||
    (65 ≤ c.toNat && c.toNat ≤ 70)

/-- Lowercase hexadecimal digit (`0`-`9`, `a`-`f`), stated on code points. -/
def isLowerHexDigit (c : Char) : Bool :=
  (48 ≤ c.toNat && c.toNat ≤ 57) || (97 ≤ c.toNat && c.toNat ≤ 102)

/-! ### Facts about `Char.toLower` -/

/-- `Char.toLower` either shifts an ASCII uppercase letter down by 32 code
points or leaves the character unchanged. -/
theorem toLower_key (c : Char) :
    (65 ≤ c.toNat ∧ c.toNat ≤ 90 ∧ (Char.toLower c).toNat = c.toNat + 32) ∨
    (¬(65 ≤ c.toNat ∧ c.toNat ≤ 90) ∧ Char.toLower c = c) := by
  unfold Char.toLower
  by_cases h : 65 ≤ c.toNat ∧ c.toNat ≤ 90
  · left
    refine ⟨h.1, h.2, ?_⟩
    have hv : (c.toNat + 32).isValidChar := Or.inl (by omega)
    simp only [ge_iff_le, h.1, h.2, and_self, if_true]
    rw [Char.ofNat, dif_pos hv]
    rfl
  · right
    refine ⟨h, ?_⟩
    simp only [ge_iff_le]
    rw [if_neg h]

theorem toLower_toLower (c : Char) :
    Char.toLower (Char.toLower c) = Char.toLower c := by
  rcases toLower_key c with ⟨_, _, h3⟩ | ⟨_, h2⟩
  · rcases toLower_key (Char.toLower c) with ⟨h4, _, _⟩ | ⟨_, h5⟩
    · omega
    · exact h5
  · rw [h2, h2]

theorem toLower_eq_iff_of_small (c d : Char) (hd : d.toNat < 65) :
    Char.toLower c = d ↔ c = d := by
  constructor
  · intro h
    rcases toLower_key c with ⟨_, _, h3⟩ | ⟨_, h2⟩
    · rw [h] at h3; omega
    · rw [← h2]; exact h
  · intro h
    subst h
    rcases toLower_key c with ⟨h1, _, _⟩ | ⟨_, h2⟩
    · omega
    · exact h2

theorem toLower_eq_space_iff (c : Char) : Char.toLower c = ' ' ↔ c = ' ' :=
  toLower_eq_iff_of_small c ' ' (by decide)

theorem toLower_eq_newline_iff (c : Char) : Char.toLower c = '\n' ↔ c = '\n' :=
  toLower_eq_iff_of_small c '\n' (by decide)

theorem isLowerHexDigit_toLower (c : Char) (h : isHexDigit c = true) :
    isLowerHexDigit (Char.toLower c) = true := by
  simp only [isHexDigit, Bool.or_eq_true, Bool.and_eq_true, decide_eq_true_eq] at h
  simp only [isLowerHexDigit, Bool.or_eq_true, Bool.and_eq_true, decide_eq_true_eq]
  rcases toLower_key c with ⟨h1, h2, h3⟩ | ⟨h1, h2⟩
  · rw [h3]; omega
  · rw [h2]; omega

/-! ### Facts about `chunkPairs` -/

theorem chunkPairs_flatten : ∀ l : List Char, (chunkPairs l).flatten = l
  | [] => rfl
  | [_] => rfl
  | c₁ :: c₂ :: rest => by
      simp [chunkPairs, chunkPairs_flatten rest]

theorem chunkPairs_length : ∀ l : List Char,
    (chunkPairs l).length = (l.length + 1) / 2
  | [] => rfl
  | [_] => by norm_num [chunkPairs]
  | _ :: _ :: rest => by
      simp only [chunkPairs, List.length_cons, chunkPairs_length rest]
      omega

theorem chunkPairs_mem_length_eq_two : ∀ l : List Char, l.length % 2 = 0 →
    ∀ ch ∈ chunkPairs l, ch.length = 2
  | [], _, ch, hch => by simp [chunkPairs] at hch
  | [_], h, _, _ => by simp at h
  | c₁ :: c₂ :: rest, h, ch, hch => by
      simp only [chunkPairs, List.mem_cons] at hch
      simp only [List.length_cons] at h
      rcases hch with rfl | hch
      · rfl
      · exact chunkPairs_mem_length_eq_two rest (by omega) ch hch

theorem chunkPairs_map (f : Char → Char) : ∀ l : List Char,
    chunkPairs (l.map f) = (chunkPairs l).map (List.map f)
  | [] => rfl
  | [_] => rfl
  | c₁ :: c₂ :: rest => by
      simp [chunkPairs, chunkPairs_map f rest]

theorem chunkPairs_odd : ∀ l : List Char, l.length % 2 = 1 →
    ∃ init c, l = init ++ [c] ∧ init.length % 2 = 0 ∧
      chunkPairs l = chunkPairs init ++ [[c]]
  | [], h => by simp at h
  | [c], _ => ⟨[], c, rfl, rfl, rfl⟩
  | c₁ :: c₂ :: rest, h => by
      simp only [List.length_cons] at h
      obtain ⟨init, c, h1, h2, h3⟩ := chunkPairs_odd rest (by omega)
      refine ⟨c₁ :: c₂ :: init, c, by simp [h1], ?_, by simp [chunkPairs, h3]⟩
      simp only [List.length_cons]
      omega

/-! ### Facts about `cleanInput` -/

theorem cleanInput_eq_filter (b : List Char) :
    cleanInput b = b.filter (fun c => !(c == ' ') && !(c == '\n')) := by
  unfold cleanInput removeNewlines removeSpaces
  rw [List.filter_filter]
  congr 1
  funext c
  rw [Bool.and_comm]

theorem mem_cleanInput_iff (b : List Char) (c : Char) :
    c ∈ cleanInput b ↔ c ∈ b ∧ c ≠ ' ' ∧ c ≠ '\n' := by
  rw [cleanInput_eq_filter, List.mem_filter]
  simp

theorem space_not_mem_cleanInput (b : List Char) : ' ' ∉ cleanInput b := by
  rw [mem_cleanInput_iff]
  simp

theorem beq_space_toLower (c : Char) : (Char.toLower c == ' ') = (c == ' ') := by
  by_cases h : c = ' '
  · subst h; rfl
  · have h2 : Char.toLower c ≠ ' ' := fun hh => h ((toLower_eq_space_iff c).1 hh)
    simp [h, h2]

theorem beq_newline_toLower (c : Char) : (Char.toLower c == '\n') = (c == '\n') := by
  by_cases h : c = '\n'
  · subst h; rfl
  · have h2 : Char.toLower c ≠ '\n' := fun hh => h ((toLower_eq_newline_iff c).1 hh)
    simp [h, h2]

theorem cleanInput_map_toLower (b : List Char) :
    cleanInput (b.map Char.toLower) = (cleanInput b).map Char.toLower := by
  rw [cleanInput_eq_filter, cleanInput_eq_filter, List.filter_map]
  refine congrArg (List.map Char.toLower) ?_
  apply List.filter_congr
  intro c _
  simp only [Function.comp_apply, beq_space_toLower, beq_newline_toLower]

/-! ### Facts about `List.intercalate` -/

theorem intercalate_cons_cons (s a c : List Char) (l : List (List Char)) :
    List.intercalate s (a :: c :: l) = a ++ s ++ List.intercalate s (c :: l) := by
  simp [List.intercalate, List.intersperse_cons_cons]

theorem intercalate_singleton (s a : List Char) :
    List.intercalate s [a] = a := by
  simp [List.intercalate]

theorem mem_intercalate_of_mem (s : List Char) (x : Char) :
    ∀ (l : List (List Char)) (t : List Char), t ∈ l → x ∈ t →
      x ∈ List.intercalate s l
  | [], _, ht, _ => by simp at ht
  | [a], t, ht, hx => by
      simp only [List.mem_singleton] at ht
      subst ht
      rw [intercalate_singleton]
      exact hx
  | a :: c :: l, t, ht, hx => by
      rw [intercalate_cons_cons]
      simp only [List.mem_cons] at ht
      rcases ht with rfl | ht
      · simp [hx]
      · have h := mem_intercalate_of_mem s x (c :: l) t (by simpa using ht) hx
        simp [h]

/-- Every character of the cleaned input reaches the output, lowercased:
it sits inside the token built from the chunk containing it. -/
theorem toLower_mem_parse (b : List Char) (c : Char) (hc : c ∈ cleanInput b) :
    Char.toLower c ∈ parse_nist_param b := by
  rw [← chunkPairs_flatten (cleanInput b), List.mem_flatten] at hc
  obtain ⟨ch, hch, hcch⟩ := hc
  have htok : Char.toLower c ∈ formatByte ch := by
    simp only [formatByte, List.mem_cons, List.mem_append, List.mem_map]
    exact Or.inr (Or.inr (Or.inl ⟨c, hcch, rfl⟩))
  rw [parse_nist_param]
  refine mem_intercalate_of_mem [' '] _ _ (formatByte ch) ?_ htok
  simp only [List.mem_reverse, List.mem_map]
  exact ⟨ch, hch, rfl⟩

theorem mem_of_mem_chunkPairs {l ch : List Char} {c : Char}
    (hch : ch ∈ chunkPairs l) (hc : c ∈ ch) : c ∈ l := by
  rw [← chunkPairs_flatten l]
  exact List.mem_flatten_of_mem hch hc

/-- Stripping the `0x` prefix and the trailing comma from a formatted token
recovers the lowercased chunk. -/
theorem payload_formatByte (ch : List Char) :
    ((formatByte ch).drop 2).dropLast = ch.map Char.toLower := by
  simp [formatByte]

theorem formatByte_map_toLower (ch : List Char) :
    formatByte (ch.map Char.toLower) = formatByte ch := by
  simp only [formatByte, List.map_map]
  have h : Char.toLower ∘ Char.toLower = Char.toLower := funext toLower_toLower
  rw [h]

/-! ### Whitespace insertion -/

/-- `WSInsertion b b'` holds when `b'` is obtained from `b` by inserting
extra space or newline characters at arbitrary positions (in particular at
any position between byte pairs, never touching the retained characters). -/
inductive WSInsertion : List Char → List Char → Prop
  | nil : WSInsertion [] []
  | keep (c : Char) {b b' : List Char} :
      WSInsertion b b' → WSInsertion (c :: b) (c :: b')
  | pad (c : Char) {b b' : List Char} (hc : c = ' ' ∨ c = '\n') :
      WSInsertion b b' → WSInsertion b (c :: b')

theorem cleanInput_wsInsertion {b b' : List Char} (h : WSInsertion b b') :
    cleanInput b' = cleanInput b := by
  rw [cleanInput_eq_filter, cleanInput_eq_filter]
  induction h with
  | nil => rfl
  | keep c _ ih => rw [List.filter_cons, List.filter_cons, ih]
  | pad c hc _ ih =>
      rcases hc with rfl | rfl <;>
        simpa [List.filter_cons] using ih

/-! ### Claim theorems -/

/-- C3: the five concrete scenarios of §8 of the spec hold: `"AB"` maps to
`"0xab,"`, `"ABCD"` to `"0xcd, 0xab,"`, `"AB CD\nEF"` to
`"0xef, 0xcd, 0xab,"`, the empty string to the empty string, and the
lowercase `"ab cd"` to `"0xcd, 0xab,"`. -/
theorem parse_nist_param_scenarios :
    parse_nist_param "AB".toList = "0xab,".toList ∧
    parse_nist_param "ABCD".toList = "0xcd, 0xab,".toList ∧
    parse_nist_param "AB CD\nEF".toList = "0xef, 0xcd, 0xab,".toList ∧
    parse_nist_param "".toList = "".toList ∧
    parse_nist_param "ab cd".toList = "0xcd, 0xab,".toList := by
  decide

/-- C4: inserting extra space or newline characters into the input (in
particular at positions between byte pairs, never inside one) does not
change the output of `parse_nist_param`. -/
theorem parse_nist_param_wsInsertion (b b' : List Char) (h : WSInsertion b b') :
    parse_nist_param b' = parse_nist_param b := by
  rw [parse_nist_param, parse_nist_param, cleanInput_wsInsertion h]

theorem parse_nist_param_wsInsertion_witness :
    WSInsertion ['A', 'B', 'C', 'D'] ['A', 'B', ' ', 'C', 'D'] ∧
    parse_nist_param ['A', 'B', ' ', 'C', 'D'] =
      parse_nist_param ['A', 'B', 'C', 'D'] := by
  have h : WSInsertion ['A', 'B', 'C', 'D'] ['A', 'B', ' ', 'C', 'D'] :=
    .keep 'A' (.keep 'B' (.pad ' ' (Or.inl rfl) (.keep 'C' (.keep 'D' .nil))))
  exact ⟨h, parse_nist_param_wsInsertion _ _ h⟩

/-- C7 counterexample: the non-hexadecimal character `G` of input `"G;"` is
not passed through verbatim: the output is `"0xg;,"`, in which `G` does not
occur at all (it was lowercased to `g`), so the literal reading of the claim
fails. -/
theorem parse_nist_param_nonhex_not_verbatim :
    isHexDigit 'G' = false ∧
    parse_nist_param ['G', ';'] = ['0', 'x', 'g', ';', ','] ∧
    'G' ∉ parse_nist_param ['G', ';'] := by
  decide

/-- C7 (amended): `parse_nist_param` is total (no validation, no error for
any input); every character of the cleaned input — hexadecimal or not — is
passed through into the output after ASCII lowercasing, hence verbatim
whenever lowercasing leaves it unchanged (for example punctuation). -/
theorem parse_nist_param_no_validation (b : List Char) :
    ∀ c ∈ cleanInput b, Char.toLower c ∈ parse_nist_param b ∧
      (Char.toLower c = c → c ∈ parse_nist_param b) := by
  intro c hc
  refine ⟨toLower_mem_parse b c hc, fun hl => ?_⟩
  rw [← hl]
  exact toLower_mem_parse b c hc

theorem parse_nist_param_no_validation_witness :
    ';' ∈ cleanInput ['a', ';'] ∧
    (Char.toLower ';' ∈ parse_nist_param ['a', ';'] ∧
      (Char.toLower ';' = ';' → ';' ∈ parse_nist_param ['a', ';'])) :=
  ⟨by decide, parse_nist_param_no_validation ['a', ';'] ';' (by decide)⟩

/-- C9: cleaning removes exactly the space and newline characters and
nothing else; any other character of the input — in particular any other
whitespace character such as tab or carriage return, all of which have code
points below 65 and are therefore untouched by `Char.toLower` — is retained
in the cleaned input, takes part in the two-character chunking, and appears
(verbatim, for code points below 65) inside the output. -/
theorem cleanInput_removes_only_space_newline (b : List Char) :
    cleanInput b = b.filter (fun c => !(c == ' ') && !(c == '\n')) ∧
    ∀ c ∈ b, c ≠ ' ' → c ≠ '\n' →
      c ∈ cleanInput b ∧ (c.toNat < 65 → c ∈ parse_nist_param b) := by
  refine ⟨cleanInput_eq_filter b, fun c hc h1 h2 => ?_⟩
  have hmem : c ∈ cleanInput b := (mem_cleanInput_iff b c).2 ⟨hc, h1, h2⟩
  refine ⟨hmem, fun hlow => ?_⟩
  have hfix : Char.toLower c = c := by
    rcases toLower_key c with ⟨h3, _, _⟩ | ⟨_, h4⟩
    · omega
    · exact h4
  rw [← hfix]
  exact toLower_mem_parse b c hmem

theorem cleanInput_removes_only_space_newline_witness :
    ('\t' ∈ (['a', '\t'] : List Char) ∧ '\t' ≠ ' ' ∧ '\t' ≠ '\n') ∧
    ('\t' ∈ cleanInput ['a', '\t'] ∧
      ('\t'.toNat < 65 → '\t' ∈ parse_nist_param ['a', '\t'])) :=
  ⟨by decide,
    (cleanInput_removes_only_space_newline ['a', '\t']).2 '\t'
      (by decide) (by decide) (by decide)⟩

/-- C10: an input consisting solely of spaces and newlines (the empty input
included) produces the empty output: zero tokens, no prefix, no comma, no
separator. -/
theorem parse_nist_param_whitespace_only (b : List Char)
    (h : ∀ c ∈ b, c = ' ' ∨ c = '\n') : parse_nist_param b = [] := by
  have hclean : cleanInput b = [] := by
    rw [cleanInput_eq_filter, List.filter_eq_nil_iff]
    intro c hc
    rcases h c hc with rfl | rfl <;> decide
  rw [parse_nist_param, hclean]
  rfl

theorem parse_nist_param_whitespace_only_witness :
    (∀ c ∈ ([' ', '\n', ' '] : List Char), c = ' ' ∨ c = '\n') ∧
    parse_nist_param [' ', '\n', ' '] = [] :=
  ⟨by decide, parse_nist_param_whitespace_only [' ', '\n', ' '] (by decide)⟩

/-- C1: for an input whose cleaned form has even length, extracting the
payload of each output token (dropping the two prefix characters `0x` and
the final comma), taking the tokens of the output string in order (split
on the space separator), reversing the payload sequence and concatenating
yields the lowercased cleaned input. -/
theorem parse_nist_param_roundtrip (b : List Char)
    (h : (cleanInput b).length % 2 = 0) :
    (((parse_nist_param b).splitOn ' ').map
        (fun t => (t.drop 2).dropLast)).reverse.flatten
      = (cleanInput b).map Char.toLower := by
  by_cases hL : cleanInput b = []
  · rw [parse_nist_param, hL]
    decide
  · have hcp : chunkPairs (cleanInput b) ≠ [] := by
      intro hcpe
      apply hL
      rw [← chunkPairs_flatten (cleanInput b), hcpe]
      rfl
    have hrev : ((chunkPairs (cleanInput b)).map formatByte).reverse ≠ [] := by
      simp [hcp]
    have hnos : ∀ t ∈ ((chunkPairs (cleanInput b)).map formatByte).reverse,
        ' ' ∉ t := by
      intro t ht
      simp only [List.mem_reverse, List.mem_map] at ht
      obtain ⟨ch, hch, rfl⟩ := ht
      intro hsp
      simp only [formatByte, List.mem_cons, List.mem_append, List.mem_map,
        List.mem_singleton] at hsp
      rcases hsp with h1 | h1 | h1 | h1
      · exact absurd h1 (by decide)
      · exact absurd h1 (by decide)
      · obtain ⟨c, hc, hlc⟩ := h1
        have hc' : c = ' ' := (toLower_eq_space_iff c).1 hlc
        subst hc'
        exact space_not_mem_cleanInput b (mem_of_mem_chunkPairs hch hc)
      · exact absurd h1 (by decide)
    rw [parse_nist_param, List.splitOn_intercalate _ ' ' hnos hrev,
      List.map_reverse, List.reverse_reverse, List.map_map]
    have hcomp : (fun t => (t.drop 2).dropLast) ∘ formatByte
        = List.map Char.toLower := funext payload_formatByte
    rw [hcomp, ← List.map_flatten, chunkPairs_flatten]

theorem parse_nist_param_roundtrip_witness :
    (cleanInput "AB CD".toList).length % 2 = 0 ∧
    (((parse_nist_param "AB CD".toList).splitOn ' ').map
        (fun t => (t.drop 2).dropLast)).reverse.flatten
      = (cleanInput "AB CD".toList).map Char.toLower :=
  ⟨by decide, parse_nist_param_roundtrip "AB CD".toList (by decide)⟩

/-- C2: for an input whose cleaned form consists of `2 * n` hexadecimal
digits, the output is exactly `n` tokens, each `0x` followed by two
lowercase hex digits followed by a comma, joined by single spaces with no
leading or trailing separator. -/
theorem parse_nist_param_token_form (b : List Char) (n : Nat)
    (h1 : (cleanInput b).length = 2 * n)
    (h2 : ∀ c ∈ cleanInput b, isHexDigit c = true) :
    ∃ ts : List (List Char), ts.length = n ∧
      (∀ t ∈ ts, ∃ d₁ d₂, isLowerHexDigit d₁ = true ∧
        isLowerHexDigit d₂ = true ∧ t = ['0', 'x', d₁, d₂, ',']) ∧
      parse_nist_param b = List.intercalate [' '] ts := by
  refine ⟨((chunkPairs (cleanInput b)).map formatByte).reverse, ?_, ?_, rfl⟩
  · rw [List.length_reverse, List.length_map, chunkPairs_length, h1]
    omega
  · intro t ht
    simp only [List.mem_reverse, List.mem_map] at ht
    obtain ⟨ch, hch, rfl⟩ := ht
    have hlen : ch.length = 2 :=
      chunkPairs_mem_length_eq_two (cleanInput b) (by omega) ch hch
    obtain ⟨d₁, d₂, rfl⟩ := List.length_eq_two.1 hlen
    exact ⟨Char.toLower d₁, Char.toLower d₂,
      isLowerHexDigit_toLower d₁ (h2 d₁ (mem_of_mem_chunkPairs hch (by simp))),
      isLowerHexDigit_toLower d₂ (h2 d₂ (mem_of_mem_chunkPairs hch (by simp))),
      rfl⟩

theorem parse_nist_param_token_form_witness :
    (cleanInput "ABCD".toList).length = 2 * 2 ∧
    (∀ c ∈ cleanInput "ABCD".toList, isHexDigit c = true) ∧
    (∃ ts : List (List Char), ts.length = 2 ∧
      (∀ t ∈ ts, ∃ d₁ d₂, isLowerHexDigit d₁ = true ∧
        isLowerHexDigit d₂ = true ∧ t = ['0', 'x', d₁, d₂, ',']) ∧
      parse_nist_param "ABCD".toList = List.intercalate [' '] ts) :=
  ⟨by decide, by decide,
    parse_nist_param_token_form "ABCD".toList 2 (by decide) (by decide)⟩

/-- C5: `parse_nist_param` is case-insensitive: every input produces the
same output as its all-lowercase version. -/
theorem parse_nist_param_case_insensitive (b : List Char) :
    parse_nist_param b = parse_nist_param (b.map Char.toLower) := by
  rw [parse_nist_param, parse_nist_param, cleanInput_map_toLower,
    chunkPairs_map, List.map_map]
  have hcomp : formatByte ∘ List.map Char.toLower = formatByte :=
    funext formatByte_map_toLower
  rw [hcomp]

/-- C6: on an input whose cleaned form has odd length, the lone final
character `c` of the cleaned input is silently formatted as the short
literal `0x`, lowercased `c`, comma; after the reversal this literal is the
first token of the output (followed by nothing or by the space separator).
No character is dropped and no error occurs (the function is total). -/
theorem parse_nist_param_odd (b : List Char)
    (h : (cleanInput b).length % 2 = 1) :
    ∃ c rest, (cleanInput b).getLast? = some c ∧
      parse_nist_param b = '0' :: 'x' :: Char.toLower c :: ',' :: rest ∧
      (rest = [] ∨ ∃ rest₂, rest = ' ' :: rest₂) := by
  obtain ⟨init, c, hsplit, hev, hchunks⟩ := chunkPairs_odd (cleanInput b) h
  have hmap : ((chunkPairs (cleanInput b)).map formatByte).reverse
      = formatByte [c] :: ((chunkPairs init).map formatByte).reverse := by
    rw [hchunks, List.map_append, List.reverse_append]
    simp
  refine ⟨c, ?_⟩
  cases hrev : ((chunkPairs init).map formatByte).reverse with
  | nil =>
      refine ⟨[], ?_, ?_, Or.inl rfl⟩
      · rw [hsplit]
        exact List.getLast?_concat init
      · rw [parse_nist_param, hmap, hrev, intercalate_singleton]
        rfl
  | cons t ts =>
      refine ⟨' ' :: List.intercalate [' '] (t :: ts), ?_, ?_,
        Or.inr ⟨List.intercalate [' '] (t :: ts), rfl⟩⟩
      · rw [hsplit]
        exact List.getLast?_concat init
      · rw [parse_nist_param, hmap, hrev, intercalate_cons_cons]
        rfl

theorem parse_nist_param_odd_witness :
    (cleanInput ['a', 'b', 'c']).length % 2 = 1 ∧
    (∃ c rest, (cleanInput ['a', 'b', 'c']).getLast? = some c ∧
      parse_nist_param ['a', 'b', 'c']
        = '0' :: 'x' :: Char.toLower c :: ',' :: rest ∧
      (rest = [] ∨ ∃ rest₂, rest = ' ' :: rest₂)) :=
  ⟨by decide, parse_nist_param_odd ['a', 'b', 'c'] (by decide)⟩

end CCGA
